import Mathlib

/-!
Shallow embedding of the stochastic L-system rewriter of
src/algorithm/lsystem.py and the rule-table construction of
src/utils/rule.py, together with a turtle interpreter modelled from the
specification (the interpreter module is not part of the sources).
Strings are embedded as lists of characters and the NumPy uniform draws
as an explicit stream of rationals indexed by a consumption counter.
-/

namespace LSys

/-- One production rule, as built by Rule.process_rules: a pattern
(field symbol), a replacement (field new_symbol) and a weight
(field chance). -/
structure ProdRule where
  symbol : List Char
  new_symbol : List Char
  chance : ℚ
deriving DecidableEq

/-- Rule.process_rules: packs each input triple into a rule record,
with no validation of any kind. -/
def process_rules (input_rules : List (List Char × List Char × ℚ)) : List ProdRule :=
  input_rules.map (fun t => ⟨t.1, t.2.1, t.2.2⟩)

/-- The match test of LSystem.match_rule for one rule at one cursor
position: the pattern must fit in the remaining suffix and the slice of
that length must equal the pattern. -/
def matchesAt (s : List Char) (i : ℕ) (r : ProdRule) : Bool :=
  decide (i + r.symbol.length ≤ s.length) && ((s.drop i).take r.symbol.length == r.symbol)

/-- The list valid_outputs of LSystem.match_rule: every rule whose
pattern matches at the cursor, in table order. -/
def validMatches (rules : List ProdRule) (s : List Char) (i : ℕ) : List ProdRule :=
  rules.filter (fun r => matchesAt s i r)

/-- The length of the longest pattern among a list of rules
(0 on the empty list). -/
def longestLen (l : List ProdRule) : ℕ :=
  l.foldl (fun m r => max m r.symbol.length) 0

/-- The list prioritized_rules of LSystem.match_rule: the matches whose
pattern length is maximal. -/
def prioritized (rules : List ProdRule) (s : List Char) (i : ℕ) : List ProdRule :=
  (validMatches rules s i).filter
    (fun r => r.symbol.length == longestLen (validMatches rules s i))

/-- The weighted selection loop of LSystem.match_rule: walk the
candidates in order, skip rules whose weight is exactly 0, accumulate
the others, and fire the first one whose accumulated weight reaches the
drawn value u. -/
def pick (u : ℚ) : ℚ → List ProdRule → Option ProdRule
  | _, [] => none
  | acc, r :: rs =>
    if r.chance = 0 then pick u acc rs
    else if u ≤ acc + r.chance then some r
    else pick u (acc + r.chance) rs

/-- The statistics dictionary matched_rules, keyed by the
(pattern, replacement) pair of a rule. -/
def ruleKey (r : ProdRule) : List Char × List Char := (r.symbol, r.new_symbol)

/-- Increment the statistic counter of one rule. -/
def bump (stats : List Char × List Char → ℕ) (r : ProdRule) :
    List Char × List Char → ℕ :=
  fun q => if q = ruleKey r then stats q + 1 else stats q

/-- The mutable context threaded through the rewriter: the statistics
dictionary and the number of uniform draws consumed so far from the
random stream. -/
structure RewriteSt where
  stats : List Char × List Char → ℕ
  k : ℕ

/-- The context at construction time: every counter is 0 and no draw has
been consumed. -/
def initSt : RewriteSt := ⟨fun _ => 0, 0⟩

/-- The value returned by LSystem.match_rule (advance, output) together
with the updated context. -/
structure MatchResult where
  advance : ℕ
  output : List Char
  st : RewriteSt

/-- LSystem.match_rule. The stream f gives the successive
numpy.random.uniform draws: index st.k is the draw taken at the top of
the call (assigned and then never read by the source), index st.k + 1
is the second draw, the one the selection loop actually compares
against. A call with no match consumes one draw; a call with a
candidate group consumes two. -/
def match_rule (rules : List ProdRule) (f : ℕ → ℚ) (s : List Char) (i : ℕ)
    (st : RewriteSt) : MatchResult :=
  if validMatches rules s i = [] then
    ⟨1, (s.drop i).take 1, ⟨st.stats, st.k + 1⟩⟩
  else
    match pick (f (st.k + 1)) 0 (prioritized rules s i) with
    | some r => ⟨r.symbol.length, r.new_symbol, ⟨bump st.stats r, st.k + 2⟩⟩
    | none =>
      ⟨longestLen (validMatches rules s i),
        (s.drop i).take (longestLen (validMatches rules s i)),
        ⟨st.stats, st.k + 2⟩⟩

/-- The while loop of the local function step inside LSystem.iterate,
made total with fuel: none models a scan that fails to advance past the
end of the string within the given number of loop iterations (the
source loop would then run forever, since an advance of 0 repeats the
same position with the same matches). -/
def stepAux (rules : List ProdRule) (f : ℕ → ℚ) (s : List Char) :
    ℕ → ℕ → RewriteSt → Option (List Char × RewriteSt)
  | 0, i, st => if s.length ≤ i then some ([], st) else none
  | fuel + 1, i, st =>
    if s.length ≤ i then some ([], st)
    else
      match stepAux rules f s fuel (i + (match_rule rules f s i st).advance)
          (match_rule rules f s i st).st with
      | none => none
      | some (t, st') => some ((match_rule rules f s i st).output ++ t, st')

/-- One generation: the local function step of LSystem.iterate. A fuel
of the string length is enough whenever every advance is at least 1,
because the cursor strictly increases at each loop iteration. -/
def step (rules : List ProdRule) (f : ℕ → ℚ) (s : List Char) (st : RewriteSt) :
    Option (List Char × RewriteSt) :=
  stepAux rules f s s.length 0 st

/-- LSystem.iterate: apply step for the requested number of
generations, each output feeding the next generation. -/
def iterate (rules : List ProdRule) (f : ℕ → ℚ) :
    ℕ → List Char → RewriteSt → Option (List Char × RewriteSt)
  | 0, s, st => some (s, st)
  | n + 1, s, st =>
    match step rules f s st with
    | none => none
    | some (s', st') => iterate rules f n s' st'

/-- Total weight of a list of rules. -/
def sumChances (l : List ProdRule) : ℚ := (l.map (fun r => r.chance)).sum

/-- The selection rule exactly as the specification words it: accumulate
every candidate weight in order, zero weights included, and fire the
first candidate whose accumulated weight reaches u. Stated from the
specification, to be compared with the selection loop of the source. -/
def pickSpecAux (u : ℚ) : ℚ → List ProdRule → Option ProdRule
  | _, [] => none
  | acc, r :: rs =>
    if u ≤ acc + r.chance then some r else pickSpecAux u (acc + r.chance) rs

end LSys

namespace Turtle

/-- Modelled from the spec: the pose operations of the turtle state
machine (module LSystemTree, absent from the sources). The pose type
and the effect of a forward move and of each rotation are abstract
parameters; the specification fixes only which symbol triggers which
operation, the segment emission, and the save/restore stack. -/
structure Ops (P : Type) where
  move : P → P
  yawL : P → P
  yawR : P → P
  pitchD : P → P
  pitchU : P → P
  rollL : P → P
  rollR : P → P
  turnAround : P → P

/-- Modelled from the spec: a turtle frame, a pose together with the
current diameter. -/
structure Frame (P : Type) where
  pose : P
  diameter : ℚ
deriving DecidableEq

/-- Modelled from the spec: one emitted branch segment. -/
structure Segment (P : Type) where
  segStart : P
  segEnd : P
  btype : Char
  diameter : ℚ
deriving DecidableEq

/-- Modelled from the spec: the action of one symbol on the turtle
state. Drawing forward emits a segment and advances the pose;
lowercase f advances without emitting; an opening bracket saves the
current frame and scales the diameter for the new level; a closing
bracket restores the saved frame and is a fatal error on an empty
stack; rotation symbols apply the matching pose operation; any other
symbol is a geometric no-op. -/
def stepT {P : Type} (ops : Ops P) (scale : ℚ) (fr : Frame P)
    (stack : List (Frame P)) (c : Char) :
    Except String (List (Segment P) × Frame P × List (Frame P)) :=
  if c = 'F' ∨ c = 'S' then
    .ok ([⟨fr.pose, ops.move fr.pose, c, fr.diameter⟩],
      ⟨ops.move fr.pose, fr.diameter⟩, stack)
  else if c = 'f' then .ok ([], ⟨ops.move fr.pose, fr.diameter⟩, stack)
  else if c = '[' then .ok ([], ⟨fr.pose, fr.diameter * scale⟩, fr :: stack)
  else if c = ']' then
    match stack with
    | [] => .error "MalformedGrammarError"
    | fr' :: rest => .ok ([], fr', rest)
  else if c = '+' then .ok ([], ⟨ops.yawL fr.pose, fr.diameter⟩, stack)
  else if c = '-' then .ok ([], ⟨ops.yawR fr.pose, fr.diameter⟩, stack)
  else if c = '&' then .ok ([], ⟨ops.pitchD fr.pose, fr.diameter⟩, stack)
  else if c = '^' then .ok ([], ⟨ops.pitchU fr.pose, fr.diameter⟩, stack)
  else if c = '\\' then .ok ([], ⟨ops.rollL fr.pose, fr.diameter⟩, stack)
  else if c = '/' then .ok ([], ⟨ops.rollR fr.pose, fr.diameter⟩, stack)
  else if c = '|' then .ok ([], ⟨ops.turnAround fr.pose, fr.diameter⟩, stack)
  else .ok ([], fr, stack)

/-- Modelled from the spec: the single left-to-right pass of the turtle
over a symbol string, threading the current frame and the stack and
concatenating the emitted segments; the first fatal error aborts the
pass. -/
def runT {P : Type} (ops : Ops P) (scale : ℚ) :
    Frame P → List (Frame P) → List Char →
    Except String (List (Segment P) × Frame P × List (Frame P))
  | fr, stack, [] => .ok ([], fr, stack)
  | fr, stack, c :: rest =>
    match stepT ops scale fr stack c with
    | .error e => .error e
    | .ok (segs, fr', stack') =>
      match runT ops scale fr' stack' rest with
      | .error e => .error e
      | .ok (segs2, fr'', stack'') => .ok (segs ++ segs2, fr'', stack'')

/-- Modelled from the spec: interpret a finished symbol string starting
from a given frame with an empty stack, returning the ordered branch
segment list, or the fatal error that aborted the interpretation. -/
def interpret {P : Type} (ops : Ops P) (scale : ℚ) (fr0 : Frame P)
    (s : List Char) : Except String (List (Segment P)) :=
  match runT ops scale fr0 [] s with
  | .error e => .error e
  | .ok (segs, _, _) => .ok segs

end Turtle

namespace LSys

theorem pick_mem (u : ℚ) : ∀ (l : List ProdRule) (acc : ℚ) (r : ProdRule),
    pick u acc l = some r → r ∈ l := by
  intro l
  induction l with
  | nil => intro acc r h; simp [pick] at h
  | cons a t ih =>
    intro acc r h
    simp only [pick] at h
    split_ifs at h with h0 h1
    · exact List.mem_cons_of_mem a (ih acc r h)
    · injection h with h; exact h ▸ List.mem_cons_self a t
    · exact List.mem_cons_of_mem a (ih _ r h)

theorem pick_chance_ne (u : ℚ) : ∀ (l : List ProdRule) (acc : ℚ) (r : ProdRule),
    pick u acc l = some r → r.chance ≠ 0 := by
  intro l
  induction l with
  | nil => intro acc r h; simp [pick] at h
  | cons a t ih =>
    intro acc r h
    simp only [pick] at h
    split_ifs at h with h0 h1
    · exact ih acc r h
    · injection h with h; exact h ▸ h0
    · exact ih _ r h

theorem foldl_max_le_start : ∀ (l : List ProdRule) (a : ℕ),
    a ≤ l.foldl (fun m r => max m r.symbol.length) a := by
  intro l
  induction l with
  | nil => intro a; exact le_refl a
  | cons x t ih =>
    intro a
    exact le_trans (le_max_left a x.symbol.length) (ih (max a x.symbol.length))

theorem length_le_foldl : ∀ (l : List ProdRule) (r : ProdRule), r ∈ l →
    ∀ a : ℕ, r.symbol.length ≤ l.foldl (fun m x => max m x.symbol.length) a := by
  intro l
  induction l with
  | nil => intro r h; cases h
  | cons x t ih =>
    intro r h a
    rcases List.mem_cons.mp h with rfl | h
    · exact le_trans (le_max_right a r.symbol.length) (foldl_max_le_start t _)
    · exact ih r h _

theorem le_longestLen_of_mem (l : List ProdRule) (r : ProdRule) (h : r ∈ l) :
    r.symbol.length ≤ longestLen l :=
  length_le_foldl l r h 0

theorem mem_prioritized {rules : List ProdRule} {s : List Char} {i : ℕ}
    {r : ProdRule} (h : r ∈ prioritized rules s i) :
    r ∈ validMatches rules s i ∧
      r.symbol.length = longestLen (validMatches rules s i) := by
  have h' := List.mem_filter.mp h
  exact ⟨h'.1, by simpa using h'.2⟩

theorem mem_validMatches {rules : List ProdRule} {s : List Char} {i : ℕ}
    {r : ProdRule} (h : r ∈ validMatches rules s i) :
    r ∈ rules ∧ matchesAt s i r = true :=
  List.mem_filter.mp h

theorem matchesAt_iff {s : List Char} {i : ℕ} {r : ProdRule}
    (h : matchesAt s i r = true) :
    i + r.symbol.length ≤ s.length ∧ (s.drop i).take r.symbol.length = r.symbol := by
  simp only [matchesAt, Bool.and_eq_true, decide_eq_true_eq, beq_iff_eq] at h
  exact h

theorem sumChances_nonneg : ∀ l : List ProdRule,
    (∀ r ∈ l, 0 ≤ r.chance) → 0 ≤ sumChances l := by
  intro l
  induction l with
  | nil => intro _; simp [sumChances]
  | cons a t ih =>
    intro h
    have hs : sumChances (a :: t) = a.chance + sumChances t := by
      simp [sumChances]
    rw [hs]
    have h1 := h a (List.mem_cons_self a t)
    have h2 := ih (fun r hr => h r (List.mem_cons_of_mem a hr))
    linarith

theorem pick_eq_none (u : ℚ) : ∀ (l : List ProdRule) (acc : ℚ),
    (∀ r ∈ l, 0 ≤ r.chance) → acc + sumChances l < u → pick u acc l = none := by
  intro l
  induction l with
  | nil => intro acc _ _; rfl
  | cons a t ih =>
    intro acc hn hlt
    have hs : sumChances (a :: t) = a.chance + sumChances t := by
      simp [sumChances]
    rw [hs] at hlt
    have htn : ∀ r ∈ t, 0 ≤ r.chance := fun r hr => hn r (List.mem_cons_of_mem a hr)
    have hst : 0 ≤ sumChances t := sumChances_nonneg t htn
    simp only [pick]
    split_ifs with h0 h1
    · exact ih acc htn (by rw [h0] at hlt; linarith)
    · exfalso; linarith
    · exact ih (acc + a.chance) htn (by linarith)

theorem pick_eq_pickSpec (u : ℚ) : ∀ (l : List ProdRule) (acc : ℚ),
    pick u acc l = pickSpecAux u acc (l.filter fun r => decide (r.chance ≠ 0)) := by
  intro l
  induction l with
  | nil => intro acc; rfl
  | cons a t ih =>
    intro acc
    by_cases h0 : a.chance = 0
    · simp only [pick, if_pos h0, List.filter_cons, h0]
      simpa using ih acc
    · simp only [pick, if_neg h0, List.filter_cons]
      have hd : (decide (a.chance ≠ 0)) = true := by simp [h0]
      rw [hd]
      simp only [pickSpecAux]
      by_cases h1 : u ≤ acc + a.chance
      · rw [if_pos h1, if_pos h1]
      · rw [if_neg h1, if_neg h1]
        exact ih (acc + a.chance)

theorem match_rule_no_match {rules : List ProdRule} {f : ℕ → ℚ} {s : List Char}
    {i : ℕ} {st : RewriteSt} (h : validMatches rules s i = []) :
    match_rule rules f s i st = ⟨1, (s.drop i).take 1, ⟨st.stats, st.k + 1⟩⟩ := by
  simp only [match_rule]
  rw [if_pos h]

theorem match_rule_fired {rules : List ProdRule} {f : ℕ → ℚ} {s : List Char}
    {i : ℕ} {st : RewriteSt} {r : ProdRule}
    (h : pick (f (st.k + 1)) 0 (prioritized rules s i) = some r) :
    match_rule rules f s i st =
      ⟨r.symbol.length, r.new_symbol, ⟨bump st.stats r, st.k + 2⟩⟩ := by
  have hr : r ∈ prioritized rules s i := pick_mem _ _ _ _ h
  have hv : validMatches rules s i ≠ [] := by
    intro hnil
    simp only [prioritized, hnil, List.filter_nil] at hr
    exact absurd hr (List.not_mem_nil r)
  simp only [match_rule]
  rw [if_neg hv, h]

theorem match_rule_fallback {rules : List ProdRule} {f : ℕ → ℚ} {s : List Char}
    {i : ℕ} {st : RewriteSt}
    (hv : validMatches rules s i ≠ [])
    (h : pick (f (st.k + 1)) 0 (prioritized rules s i) = none) :
    match_rule rules f s i st =
      ⟨longestLen (validMatches rules s i),
        (s.drop i).take (longestLen (validMatches rules s i)),
        ⟨st.stats, st.k + 2⟩⟩ := by
  simp only [match_rule]
  rw [if_neg hv, h]

theorem match_rule_advance_pos {rules : List ProdRule}
    (hne : ∀ r ∈ rules, r.symbol ≠ []) (f : ℕ → ℚ) (s : List Char) (i : ℕ)
    (st : RewriteSt) : 1 ≤ (match_rule rules f s i st).advance := by
  by_cases hv : validMatches rules s i = []
  · rw [match_rule_no_match hv]
  · cases hp : pick (f (st.k + 1)) 0 (prioritized rules s i) with
    | some r =>
      rw [match_rule_fired hp]
      show 1 ≤ r.symbol.length
      have hr := (mem_prioritized (pick_mem _ _ _ _ hp)).1
      have hmem := (mem_validMatches hr).1
      have hpos : r.symbol ≠ [] := hne r hmem
      have := List.length_pos.mpr hpos
      omega
    | none =>
      rw [match_rule_fallback hv hp]
      show 1 ≤ longestLen (validMatches rules s i)
      obtain ⟨r, hr⟩ := List.exists_mem_of_ne_nil _ hv
      have h1 : r.symbol.length ≤ longestLen (validMatches rules s i) :=
        le_longestLen_of_mem _ r hr
      have h2 : r.symbol ≠ [] := hne r (mem_validMatches hr).1
      have := List.length_pos.mpr h2
      omega

theorem stepAux_isSome {rules : List ProdRule}
    (hne : ∀ r ∈ rules, r.symbol ≠ []) (f : ℕ → ℚ) (s : List Char) :
    ∀ (fuel i : ℕ) (st : RewriteSt), s.length - i ≤ fuel →
      (stepAux rules f s fuel i st).isSome := by
  intro fuel
  induction fuel with
  | zero =>
    intro i st hle
    have hi : s.length ≤ i := by omega
    simp [stepAux, hi]
  | succ fuel ih =>
    intro i st hle
    by_cases hi : s.length ≤ i
    · simp [stepAux, hi]
    · simp only [stepAux, if_neg hi]
      have hadv := match_rule_advance_pos hne f s i st
      have hfuel : s.length - (i + (match_rule rules f s i st).advance) ≤ fuel := by
        omega
      have hrec := ih (i + (match_rule rules f s i st).advance)
        (match_rule rules f s i st).st hfuel
      cases hr : stepAux rules f s fuel (i + (match_rule rules f s i st).advance)
          (match_rule rules f s i st).st with
      | none => rw [hr] at hrec; simp at hrec
      | some p =>
        obtain ⟨t, st'⟩ := p
        rfl

theorem iterate_isSome {rules : List ProdRule}
    (hne : ∀ r ∈ rules, r.symbol ≠ []) (f : ℕ → ℚ) :
    ∀ (n : ℕ) (s : List Char) (st : RewriteSt),
      (iterate rules f n s st).isSome := by
  intro n
  induction n with
  | zero => intro s st; rfl
  | succ n ih =>
    intro s st
    have h : (step rules f s st).isSome :=
      stepAux_isSome hne f s s.length 0 st (by omega)
    simp only [iterate]
    cases hstep : step rules f s st with
    | none => rw [hstep] at h; simp at h
    | some p =>
      obtain ⟨s1, st1⟩ := p
      exact ih s1 st1

theorem match_rule_count {rules : List ProdRule} {c : Char}
    (hc : ∀ r ∈ rules, c ∉ r.symbol) (f : ℕ → ℚ) (s : List Char) (i : ℕ)
    (st : RewriteSt) :
    ((s.drop i).take (match_rule rules f s i st).advance).count c ≤
      (match_rule rules f s i st).output.count c := by
  by_cases hv : validMatches rules s i = []
  · rw [match_rule_no_match hv]
  · cases hp : pick (f (st.k + 1)) 0 (prioritized rules s i) with
    | some r =>
      rw [match_rule_fired hp]
      show ((s.drop i).take r.symbol.length).count c ≤ r.new_symbol.count c
      have hr := pick_mem _ _ _ _ hp
      have hval := (mem_prioritized hr).1
      have ht := (matchesAt_iff (mem_validMatches hval).2).2
      rw [ht]
      have hz : r.symbol.count c = 0 :=
        List.count_eq_zero.mpr (hc r (mem_validMatches hval).1)
      rw [hz]
      exact Nat.zero_le _
    | none =>
      rw [match_rule_fallback hv hp]

theorem stepAux_count {rules : List ProdRule} {c : Char}
    (hc : ∀ r ∈ rules, c ∉ r.symbol) (f : ℕ → ℚ) (s : List Char) :
    ∀ (fuel i : ℕ) (st : RewriteSt) (t : List Char) (st' : RewriteSt),
      stepAux rules f s fuel i st = some (t, st') →
      (s.drop i).count c ≤ t.count c := by
  intro fuel
  induction fuel with
  | zero =>
    intro i st t st' h
    simp only [stepAux] at h
    split_ifs at h with hle
    simp only [Option.some.injEq, Prod.mk.injEq] at h
    rw [List.drop_eq_nil_of_le hle, ← h.1]
  | succ fuel ih =>
    intro i st t st' h
    simp only [stepAux] at h
    split_ifs at h with hle
    · simp only [Option.some.injEq, Prod.mk.injEq] at h
      rw [List.drop_eq_nil_of_le hle, ← h.1]
    · cases hrec : stepAux rules f s fuel
          (i + (match_rule rules f s i st).advance)
          (match_rule rules f s i st).st with
      | none => rw [hrec] at h; cases h
      | some p =>
        obtain ⟨t0, st0⟩ := p
        rw [hrec] at h
        simp only [Option.some.injEq, Prod.mk.injEq] at h
        have h1 := ih _ _ _ _ hrec
        have h2 := match_rule_count hc f s i st
        have hsplit : (s.drop i).count c =
            ((s.drop i).take (match_rule rules f s i st).advance).count c +
              (s.drop (i + (match_rule rules f s i st).advance)).count c := by
          conv_lhs =>
            rw [← List.take_append_drop (match_rule rules f s i st).advance
              (s.drop i)]
          rw [List.count_append, List.drop_drop, Nat.add_comm i]
        rw [hsplit, ← h.1, List.count_append]
        omega

theorem step_count {rules : List ProdRule} {c : Char}
    (hc : ∀ r ∈ rules, c ∉ r.symbol) (f : ℕ → ℚ) (s : List Char)
    (st : RewriteSt) (t : List Char) (st' : RewriteSt)
    (h : step rules f s st = some (t, st')) : s.count c ≤ t.count c := by
  have h' := stepAux_count hc f s s.length 0 st t st' h
  simpa using h'

theorem iterate_count {rules : List ProdRule} {c : Char}
    (hc : ∀ r ∈ rules, c ∉ r.symbol) (f : ℕ → ℚ) :
    ∀ (n : ℕ) (s : List Char) (st : RewriteSt) (t : List Char) (st' : RewriteSt),
      iterate rules f n s st = some (t, st') → s.count c ≤ t.count c := by
  intro n
  induction n with
  | zero =>
    intro s st t st' h
    simp only [iterate, Option.some.injEq, Prod.mk.injEq] at h
    rw [h.1]
  | succ n ih =>
    intro s st t st' h
    simp only [iterate] at h
    cases hstep : step rules f s st with
    | none => rw [hstep] at h; cases h
    | some p =>
      obtain ⟨s1, st1⟩ := p
      rw [hstep] at h
      exact le_trans (step_count hc f s st s1 st1 hstep) (ih s1 st1 t st' h)

end LSys

namespace Turtle

theorem runT_pop_empty {P : Type} (ops : Ops P) (scale : ℚ) :
    ∀ (a b : List Char) (fr0 : Frame P) (stack : List (Frame P))
      (segs : List (Segment P)) (fr' : Frame P),
      runT ops scale fr0 stack a = .ok (segs, fr', []) →
      runT ops scale fr0 stack (a ++ (']' :: b)) =
        .error "MalformedGrammarError" := by
  intro a
  induction a with
  | nil =>
    intro b fr0 stack segs fr' h
    simp only [runT, Except.ok.injEq, Prod.mk.injEq] at h
    obtain ⟨-, -, rfl⟩ := h
    simp [runT, stepT]
  | cons c rest ih =>
    intro b fr0 stack segs fr' h
    simp only [List.cons_append, runT] at h ⊢
    cases hs : stepT ops scale fr0 stack c with
    | error e => simp [hs] at h
    | ok x =>
      obtain ⟨segs1, fr1, stack1⟩ := x
      simp only [hs] at h
      cases hr : runT ops scale fr1 stack1 rest with
      | error e => simp [hr] at h
      | ok y =>
        obtain ⟨segs2, fr2, stack2⟩ := y
        simp only [hr, Except.ok.injEq, Prod.mk.injEq] at h
        obtain ⟨-, -, rfl⟩ := h
        simp [ih b fr1 stack1 segs2 fr2 hr]

end Turtle

namespace LSys

/-- C1: when rules of different pattern lengths match at a position,
only the matches of maximal pattern length are kept: any rule the
selection fires has a pattern of exactly the maximal matched length, so
it is at least as long as every match at that position. In particular,
with the rules F to X (weight 1) and FF to Y (weight 1) applied to the
string FF, one generation yields exactly Y with the FF to Y counter at
1 and the F to X counter at 0, so F to X is never applied twice. -/
theorem claim1_longest_match_wins :
    (∀ (rules : List ProdRule) (s : List Char) (i : ℕ) (u : ℚ) (r : ProdRule),
      pick u 0 (prioritized rules s i) = some r →
      r.symbol.length = longestLen (validMatches rules s i) ∧
        ∀ r2 ∈ validMatches rules s i, r2.symbol.length ≤ r.symbol.length) ∧
    (∀ f : ℕ → ℚ, f 1 < 1 →
      step [⟨['F'], ['X'], 1⟩, ⟨['F', 'F'], ['Y'], 1⟩] f ['F', 'F'] initSt =
        some (['Y'], ⟨bump initSt.stats ⟨['F', 'F'], ['Y'], 1⟩, 2⟩) ∧
      bump initSt.stats ⟨['F', 'F'], ['Y'], 1⟩ (['F'], ['X']) = 0 ∧
      bump initSt.stats ⟨['F', 'F'], ['Y'], 1⟩ (['F', 'F'], ['Y']) = 1) := by
  constructor
  · intro rules s i u r h
    have hm := mem_prioritized (pick_mem _ _ _ _ h)
    refine ⟨hm.2, ?_⟩
    intro r2 h2
    rw [hm.2]
    exact le_longestLen_of_mem _ r2 h2
  · intro f h
    have h1 : f 1 ≤ 1 := le_of_lt h
    refine ⟨?_, ?_, ?_⟩
    · simp [step, stepAux, match_rule, validMatches, matchesAt, prioritized,
        longestLen, pick, initSt, h1]
    · simp [bump, ruleKey, initSt]
    · simp [bump, ruleKey, initSt]

theorem claim1_longest_match_wins_witness :
    ((⟨['F', 'F'], ['Y'], 1⟩ : ProdRule).symbol.length =
        longestLen (validMatches [⟨['F'], ['X'], 1⟩, ⟨['F', 'F'], ['Y'], 1⟩]
          ['F', 'F'] 0) ∧
      ∀ r2 ∈ validMatches [⟨['F'], ['X'], 1⟩, ⟨['F', 'F'], ['Y'], 1⟩] ['F', 'F'] 0,
        r2.symbol.length ≤ (⟨['F', 'F'], ['Y'], 1⟩ : ProdRule).symbol.length) ∧
    (step [⟨['F'], ['X'], 1⟩, ⟨['F', 'F'], ['Y'], 1⟩] (fun _ => 0) ['F', 'F'] initSt =
        some (['Y'], ⟨bump initSt.stats ⟨['F', 'F'], ['Y'], 1⟩, 2⟩) ∧
      bump initSt.stats ⟨['F', 'F'], ['Y'], 1⟩ (['F'], ['X']) = 0 ∧
      bump initSt.stats ⟨['F', 'F'], ['Y'], 1⟩ (['F', 'F'], ['Y']) = 1) :=
  ⟨claim1_longest_match_wins.1 [⟨['F'], ['X'], 1⟩, ⟨['F', 'F'], ['Y'], 1⟩]
      ['F', 'F'] 0 0 ⟨['F', 'F'], ['Y'], 1⟩
      (by simp [pick, prioritized, validMatches, matchesAt, longestLen]),
    claim1_longest_match_wins.2 (fun _ => 0) zero_lt_one⟩

/-- C2, counterexample to the claim as stated: with the drawn value
u = 0 and the longest-match group consisting of F to A (weight 0)
followed by F to B (weight 1), the first candidate whose cumulative
weight reaches u is F to A (cumulative weight 0 at u = 0), yet the
rewriter emits B, because the selection loop skips zero-weight
candidates instead of testing them against the accumulated weight. -/
theorem claim2_first_cumulative_counterexample :
    prioritized [⟨['F'], ['A'], 0⟩, ⟨['F'], ['B'], 1⟩] ['F'] 0 =
      [⟨['F'], ['A'], 0⟩, ⟨['F'], ['B'], 1⟩] ∧
    pickSpecAux 0 0 [⟨['F'], ['A'], 0⟩, ⟨['F'], ['B'], 1⟩] =
      some ⟨['F'], ['A'], 0⟩ ∧
    (match_rule [⟨['F'], ['A'], 0⟩, ⟨['F'], ['B'], 1⟩] (fun _ => 0)
        ['F'] 0 initSt).output = ['B'] ∧
    (['B'] : List Char) ≠ ['A'] := by
  refine ⟨?_, ?_, ?_, by decide⟩
  · simp [prioritized, validMatches, matchesAt, longestLen]
  · simp [pickSpecAux]
  · simp [match_rule, validMatches, matchesAt, prioritized, longestLen, pick, initSt]

/-- C2 as amended: the selection behaves as the claim states after the
zero-weight candidates are discarded: the selection loop over a
candidate list equals the first-cumulative-reach rule of the
specification applied to the candidates of nonzero weight, and whenever
it fires a rule the rewriter emits that rule's replacement, advances
the cursor by that rule's pattern length, increments that rule's
statistic counter by one, and consumes its second draw. -/
theorem claim2_selection_amended :
    (∀ (u : ℚ) (l : List ProdRule),
      pick u 0 l = pickSpecAux u 0 (l.filter fun r => decide (r.chance ≠ 0))) ∧
    (∀ (rules : List ProdRule) (f : ℕ → ℚ) (s : List Char) (i : ℕ)
      (st : RewriteSt) (r : ProdRule),
      pick (f (st.k + 1)) 0 (prioritized rules s i) = some r →
      match_rule rules f s i st =
        ⟨r.symbol.length, r.new_symbol, ⟨bump st.stats r, st.k + 2⟩⟩) :=
  ⟨fun u l => pick_eq_pickSpec u l 0,
    fun _ _ _ _ _ _ h => match_rule_fired h⟩

theorem claim2_selection_amended_witness :
    (pick 0 0 [⟨['F'], ['A'], 0⟩, ⟨['F'], ['B'], 1⟩] =
      pickSpecAux 0 0 ([⟨['F'], ['A'], 0⟩, ⟨['F'], ['B'], 1⟩].filter
        fun r => decide (r.chance ≠ 0))) ∧
    match_rule [⟨['F'], ['X'], 1⟩, ⟨['F', 'F'], ['Y'], 1⟩] (fun _ => 0)
        ['F', 'F'] 0 initSt =
      ⟨(⟨['F', 'F'], ['Y'], 1⟩ : ProdRule).symbol.length,
        (⟨['F', 'F'], ['Y'], 1⟩ : ProdRule).new_symbol,
        ⟨bump initSt.stats ⟨['F', 'F'], ['Y'], 1⟩, initSt.k + 2⟩⟩ :=
  ⟨claim2_selection_amended.1 0 [⟨['F'], ['A'], 0⟩, ⟨['F'], ['B'], 1⟩],
    claim2_selection_amended.2 [⟨['F'], ['X'], 1⟩, ⟨['F', 'F'], ['Y'], 1⟩]
      (fun _ => 0) ['F', 'F'] 0 initSt ⟨['F', 'F'], ['Y'], 1⟩
      (by simp [pick, prioritized, validMatches, matchesAt, longestLen, initSt])⟩

/-- C3: when longest-match candidates exist but no cumulative weight of
a candidate reaches the drawn value u (total weight of the group below
u), the rewriter re-emits the original longest-matched substring
verbatim, advances the cursor by the longest pattern length, leaves
every statistic counter unchanged, and raises no error; the weights
enter the comparison raw, with no renormalization. -/
theorem claim3_subunity_fallback (rules : List ProdRule) (f : ℕ → ℚ)
    (s : List Char) (i : ℕ) (st : RewriteSt)
    (hv : validMatches rules s i ≠ [])
    (hw : ∀ r ∈ rules, 0 ≤ r.chance)
    (_h0 : 0 ≤ f (st.k + 1)) (_h1 : f (st.k + 1) < 1)
    (hlt : sumChances (prioritized rules s i) < f (st.k + 1)) :
    match_rule rules f s i st =
      ⟨longestLen (validMatches rules s i),
        (s.drop i).take (longestLen (validMatches rules s i)),
        ⟨st.stats, st.k + 2⟩⟩ := by
  have hw' : ∀ r ∈ prioritized rules s i, 0 ≤ r.chance := fun r hr =>
    hw r (mem_validMatches (mem_prioritized hr).1).1
  have hp : pick (f (st.k + 1)) 0 (prioritized rules s i) = none :=
    pick_eq_none _ _ 0 hw' (by rw [zero_add]; exact hlt)
  exact match_rule_fallback hv hp

theorem claim3_subunity_fallback_witness :
    match_rule [⟨['F'], ['X'], 0⟩] (fun _ => 1/2) ['F'] 0 initSt =
      ⟨longestLen (validMatches [⟨['F'], ['X'], 0⟩] ['F'] 0),
        ((['F'] : List Char).drop 0).take
          (longestLen (validMatches [⟨['F'], ['X'], 0⟩] ['F'] 0)),
        ⟨initSt.stats, initSt.k + 2⟩⟩ :=
  claim3_subunity_fallback [⟨['F'], ['X'], 0⟩] (fun _ => 1/2) ['F'] 0 initSt
    (by simp [validMatches, matchesAt])
    (by simp)
    one_half_pos.le
    one_half_lt_one
    (by simp [sumChances, prioritized, validMatches, matchesAt, longestLen])

/-- C4: the expansion is deterministic given its random stream: two
runs of iterate whose injected streams agree at every index produce the
same final symbol string and the same rule statistic counts, for every
rule table, start string, and generation count. -/
theorem claim4_determinism (rules : List ProdRule) (f g : ℕ → ℚ)
    (h : ∀ m, f m = g m) (n : ℕ) (s : List Char) (st : RewriteSt) :
    iterate rules f n s st = iterate rules g n s st := by
  have hfg : f = g := funext h
  rw [hfg]

theorem claim4_determinism_witness :
    iterate [⟨['F'], ['F', 'F'], 1⟩] (fun _ => 0) 2 ['F'] initSt =
      iterate [⟨['F'], ['F', 'F'], 1⟩] (fun _ => 0) 2 ['F'] initSt :=
  claim4_determinism [⟨['F'], ['F', 'F'], 1⟩] (fun _ => 0) (fun _ => 0)
    (fun _ => rfl) 2 ['F'] initSt

/-- C5: at a position where no rule pattern matches, the rewriter emits
the single symbol at the cursor unchanged, advances the cursor by
exactly 1, touches no statistic counter, and consequently a symbol that
occurs in no rule pattern is copied unchanged through every generation:
its occurrence count never decreases across any number of
generations. -/
theorem claim5_identity_no_match :
    (∀ (rules : List ProdRule) (f : ℕ → ℚ) (s : List Char) (i : ℕ)
      (st : RewriteSt), validMatches rules s i = [] →
      match_rule rules f s i st = ⟨1, (s.drop i).take 1, ⟨st.stats, st.k + 1⟩⟩) ∧
    (∀ (rules : List ProdRule) (c : Char) (f : ℕ → ℚ) (n : ℕ) (s : List Char)
      (st : RewriteSt) (t : List Char) (st' : RewriteSt),
      (∀ r ∈ rules, c ∉ r.symbol) →
      iterate rules f n s st = some (t, st') →
      s.count c ≤ t.count c) :=
  ⟨fun _ _ _ _ _ h => match_rule_no_match h,
    fun _ _c f n s st t st' hc h => iterate_count hc f n s st t st' h⟩

theorem claim5_identity_no_match_witness :
    match_rule [⟨['F'], ['X'], 1⟩] (fun _ => 0) ['G'] 0 initSt =
      ⟨1, ((['G'] : List Char).drop 0).take 1, ⟨initSt.stats, initSt.k + 1⟩⟩ ∧
    (['G'] : List Char).count 'G' ≤ (['G'] : List Char).count 'G' :=
  ⟨claim5_identity_no_match.1 [⟨['F'], ['X'], 1⟩] (fun _ => 0) ['G'] 0 initSt
      (by decide),
    claim5_identity_no_match.2 [⟨['F'], ['X'], 1⟩] 'G' (fun _ => 0) 1 ['G']
      initSt ['G'] ⟨initSt.stats, 1⟩ (by decide) rfl⟩

/-- C6: a rule that is the sole longest-match candidate and has weight
1 fires for every draw u with 0 at most u below 1; a rule of weight 0
is never the fired rule, for any draw and any position; and a rule of
weight 0 still participates in longest-match grouping: every match at a
position, whatever its weight, bounds the group's pattern length from
below. -/
theorem claim6_weight_bounds :
    (∀ (rules : List ProdRule) (f : ℕ → ℚ) (s : List Char) (i : ℕ)
      (st : RewriteSt) (r : ProdRule),
      prioritized rules s i = [r] → r.chance = 1 →
      0 ≤ f (st.k + 1) → f (st.k + 1) < 1 →
      match_rule rules f s i st =
        ⟨r.symbol.length, r.new_symbol, ⟨bump st.stats r, st.k + 2⟩⟩) ∧
    (∀ (u acc : ℚ) (l : List ProdRule) (r : ProdRule),
      pick u acc l = some r → r.chance ≠ 0) ∧
    (∀ (rules : List ProdRule) (s : List Char) (i : ℕ) (r : ProdRule),
      r ∈ validMatches rules s i →
      r.symbol.length ≤ longestLen (validMatches rules s i)) := by
  refine ⟨?_, ?_, ?_⟩
  · intro rules f s i st r hpr hch _h0 h1
    have hp : pick (f (st.k + 1)) 0 (prioritized rules s i) = some r := by
      rw [hpr]
      simp only [pick, hch]
      rw [if_neg one_ne_zero, if_pos (by linarith)]
    exact match_rule_fired hp
  · intro u acc l r h
    exact pick_chance_ne u l acc r h
  · intro rules s i r h
    exact le_longestLen_of_mem _ r h

theorem claim6_weight_bounds_witness :
    match_rule [⟨['F'], ['X'], 1⟩] (fun _ => 0) ['F'] 0 initSt =
      ⟨(⟨['F'], ['X'], 1⟩ : ProdRule).symbol.length,
        (⟨['F'], ['X'], 1⟩ : ProdRule).new_symbol,
        ⟨bump initSt.stats ⟨['F'], ['X'], 1⟩, initSt.k + 2⟩⟩ ∧
    (⟨['F'], ['B'], 1⟩ : ProdRule).chance ≠ 0 ∧
    (⟨['F'], ['F', 'F', 'F', 'R'], 0⟩ : ProdRule).symbol.length ≤
      longestLen (validMatches
        [⟨['F'], ['F', 'R', 'F'], 1⟩, ⟨['F'], ['F', 'F', 'F', 'R'], 0⟩]
        ['F', 'R'] 0) :=
  ⟨claim6_weight_bounds.1 [⟨['F'], ['X'], 1⟩] (fun _ => 0) ['F'] 0 initSt
      ⟨['F'], ['X'], 1⟩
      (by simp [prioritized, validMatches, matchesAt, longestLen])
      rfl (le_refl 0) zero_lt_one,
    claim6_weight_bounds.2.1 0 0 [⟨['F'], ['A'], 0⟩, ⟨['F'], ['B'], 1⟩]
      ⟨['F'], ['B'], 1⟩ (by simp [pick]),
    claim6_weight_bounds.2.2
      [⟨['F'], ['F', 'R', 'F'], 1⟩, ⟨['F'], ['F', 'F', 'F', 'R'], 0⟩]
      ['F', 'R'] 0 ⟨['F'], ['F', 'F', 'F', 'R'], 0⟩
      (by simp [validMatches, matchesAt])⟩

/-- C7, counterexample to the claim as stated: the source draws one
uniform value at the top of every match_rule call before looking for
matches, so a draw is consumed even at a position where no rule
matches, and two draws are consumed at a position with a candidate
group: at position 0 of the string G, where no rule matches, the
consumption counter rises from 0 to 1, not 0; at position 0 of the
string F, with one candidate, it rises to 2, not 1. -/
theorem claim7_draw_count_counterexample :
    validMatches [⟨['F'], ['X'], 1⟩] ['G'] 0 = [] ∧
    (match_rule [⟨['F'], ['X'], 1⟩] (fun _ => 0) ['G'] 0 initSt).st.k = 1 ∧
    validMatches [⟨['F'], ['X'], 1⟩] ['F'] 0 ≠ [] ∧
    (match_rule [⟨['F'], ['X'], 1⟩] (fun _ => 0) ['F'] 0 initSt).st.k = 2 := by
  refine ⟨by decide, ?_, by decide, ?_⟩
  · simp [match_rule, validMatches, matchesAt, initSt]
  · simp [match_rule, validMatches, matchesAt, prioritized, longestLen, pick, initSt]

/-- C7 as amended: within one rewrite the draws occur in scan order,
but the per-position consumption is one draw at a position with no
match (taken and discarded) and two draws at a position with a
longest-match candidate group (the first discarded, the second used by
the selection): the consumption counter rises by exactly that amount on
every call. -/
theorem claim7_draw_count_amended (rules : List ProdRule) (f : ℕ → ℚ)
    (s : List Char) (i : ℕ) (st : RewriteSt) :
    (match_rule rules f s i st).st.k =
      st.k + (if validMatches rules s i = [] then 1 else 2) := by
  by_cases hv : validMatches rules s i = []
  · rw [match_rule_no_match hv, if_pos hv]
  · rw [if_neg hv]
    cases hp : pick (f (st.k + 1)) 0 (prioritized rules s i) with
    | some r => rw [match_rule_fired hp]
    | none => rw [match_rule_fallback hv hp]

/-- C8, counterexample to the claim as stated: rule-table construction
performs no validation, so a triple with weight minus one is accepted
and yields a rule record with a negative weight instead of being
rejected with an error. -/
theorem claim8_negative_weight_counterexample :
    process_rules [(['F'], ['X'], (-1 : ℚ))] = [⟨['F'], ['X'], -1⟩] ∧
    (⟨['F'], ['X'], (-1 : ℚ)⟩ : ProdRule).chance < 0 :=
  ⟨rfl, neg_one_lt_zero⟩

/-- C8 as amended: rule-table construction accepts every input triple
unconditionally, negative weights included: each triple becomes a rule
record with the same pattern, replacement and weight, the table keeps
one rule per triple, and no stage of construction rejects anything. -/
theorem claim8_no_validation_amended
    (input_rules : List (List Char × List Char × ℚ))
    (t : List Char × List Char × ℚ) (h : t ∈ input_rules) :
    (⟨t.1, t.2.1, t.2.2⟩ : ProdRule) ∈ process_rules input_rules ∧
    (process_rules input_rules).length = input_rules.length := by
  constructor
  · exact List.mem_map.mpr ⟨t, h, rfl⟩
  · simp [process_rules]

theorem claim8_no_validation_amended_witness :
    (⟨['F'], ['X'], (-1 : ℚ)⟩ : ProdRule) ∈
      process_rules [(['F'], ['X'], (-1 : ℚ))] ∧
    (process_rules [(['F'], ['X'], (-1 : ℚ))]).length =
      [(['F'], ['X'], (-1 : ℚ))].length :=
  claim8_no_validation_amended [(['F'], ['X'], (-1 : ℚ))]
    (['F'], ['X'], (-1 : ℚ)) (List.mem_singleton.mpr rfl)

/-- C10: when every rule pattern is non-empty, match_rule always
returns an advance of at least 1, so the per-generation scan strictly
shrinks the remaining suffix, a fuel of the string length suffices, and
iterate returns a result for every start string, generation count and
stream. -/
theorem claim10_termination (rules : List ProdRule)
    (hne : ∀ r ∈ rules, r.symbol ≠ []) :
    (∀ (f : ℕ → ℚ) (s : List Char) (i : ℕ) (st : RewriteSt),
      1 ≤ (match_rule rules f s i st).advance) ∧
    (∀ (f : ℕ → ℚ) (n : ℕ) (s : List Char) (st : RewriteSt),
      (iterate rules f n s st).isSome) :=
  ⟨fun f s i st => match_rule_advance_pos hne f s i st,
    fun f n s st => iterate_isSome hne f n s st⟩

theorem claim10_termination_witness :
    1 ≤ (match_rule [⟨['F'], ['X'], 1⟩, ⟨['F', 'F'], ['Y'], 1⟩] (fun _ => 0)
      ['F', 'F'] 0 initSt).advance ∧
    (iterate [⟨['F'], ['X'], 1⟩, ⟨['F', 'F'], ['Y'], 1⟩] (fun _ => 0) 3
      ['F', 'F'] initSt).isSome :=
  ⟨(claim10_termination [⟨['F'], ['X'], 1⟩, ⟨['F', 'F'], ['Y'], 1⟩]
      (by decide)).1 (fun _ => 0) ['F', 'F'] 0 initSt,
    (claim10_termination [⟨['F'], ['X'], 1⟩, ⟨['F', 'F'], ['Y'], 1⟩]
      (by decide)).2 (fun _ => 0) 3 ['F', 'F'] initSt⟩

end LSys

namespace Turtle

/-- C9: interpreting a pop symbol with an empty saved-frame stack is a
fatal error: the single-symbol action on an empty stack returns the
malformed-grammar error, and a full interpretation whose scan reaches a
pop with the stack empty aborts with that error instead of returning a
segment list, for every pose type, pose operations, taper scale and
start frame. -/
theorem claim9_pop_empty_fatal :
    (∀ (P : Type) (ops : Ops P) (scale : ℚ) (fr : Frame P),
      stepT ops scale fr ([] : List (Frame P)) ']' =
        .error "MalformedGrammarError") ∧
    (∀ (P : Type) (ops : Ops P) (scale : ℚ) (fr0 : Frame P) (a b : List Char)
      (segs : List (Segment P)) (fr' : Frame P),
      runT ops scale fr0 [] a = .ok (segs, fr', []) →
      interpret ops scale fr0 (a ++ (']' :: b)) =
        .error "MalformedGrammarError") := by
  constructor
  · intro P ops scale fr
    rfl
  · intro P ops scale fr0 a b segs fr' h
    have he := runT_pop_empty ops scale a b fr0 [] segs fr' h
    simp [interpret, he]

theorem claim9_pop_empty_fatal_witness :
    stepT (⟨id, id, id, id, id, id, id, id⟩ : Ops Unit) 1 ⟨(), 1⟩ [] ']' =
      .error "MalformedGrammarError" ∧
    interpret (⟨id, id, id, id, id, id, id, id⟩ : Ops Unit) 1 ⟨(), 1⟩
        (['F'] ++ (']' :: [])) = .error "MalformedGrammarError" :=
  ⟨claim9_pop_empty_fatal.1 Unit ⟨id, id, id, id, id, id, id, id⟩ 1 ⟨(), 1⟩,
    claim9_pop_empty_fatal.2 Unit ⟨id, id, id, id, id, id, id, id⟩ 1 ⟨(), 1⟩
      ['F'] [] [⟨(), (), 'F', 1⟩] ⟨(), 1⟩ rfl⟩

end Turtle
